/-
  Verification of the log-manager ingestion / billing-classification pipeline.

  Shallow embedding of the Go sources:
    - backend/internal/tcpserver/server.go   (TCP framing, unmatched-classification ring)
    - backend/internal/middleware/ratelimit.go (token-bucket rate limiter)
    - backend/internal/cleanup/retention.go  (retention sweep)
    - internal/taglogcount                   (TagLogCount increments/decrements)
    - the LogHandler billing engine (isBillingTag, matchBillingConfigs,
      BillingConfigCache.get, ProcessLogBatch)

  Machine integers are modelled as Int/Nat (no overflow is reachable in the
  quantities involved), wall-clock instants as rationals, and storage as
  explicit state passed through the functions.  Fallible storage primitives
  return Except/Option values driven by explicit failure flags.
-/
import Mathlib

namespace LogManager

/-! ## String helpers (models of Go strings.TrimSpace / Split / Contains) -/

/-- Character-level whitespace test (models unicode.IsSpace as used by Go
strings.TrimSpace). -/
def isSpaceChar (c : Char) : Bool := c.isWhitespace

/-- Drop the longest suffix of characters satisfying p. -/
def dropRightWhile (p : Char → Bool) (l : List Char) : List Char :=
  (l.reverse.dropWhile p).reverse

/-- Trim whitespace from both ends of a character list. -/
def trimChars (l : List Char) : List Char :=
  dropRightWhile isSpaceChar (l.dropWhile isSpaceChar)

/-- Model of Go strings.TrimSpace. -/
def strTrim (s : String) : String := String.mk (trimChars s.data)

/-- Character-list prefix test used to define substring containment. -/
def isPrefixOfChars : List Char → List Char → Bool
  | [], _ => true
  | _ :: _, [] => false
  | a :: as, b :: bs => a == b && isPrefixOfChars as bs

/-- Substring containment on character lists: does sub occur contiguously in
the second argument?  The empty list occurs in everything. -/
def containsChars (sub : List Char) : List Char → Bool
  | [] => isPrefixOfChars sub []
  | b :: bs => isPrefixOfChars sub (b :: bs) || containsChars sub bs

/-- Model of Go strings.Contains s sub (haystack first). -/
def strContains (s sub : String) : Bool := containsChars sub.data s.data

/-- Split a character list on a separator; the result always has at least one
(possibly empty) group, matching Go strings.Split. -/
def splitChars (sep : Char) : List Char → List (List Char)
  | [] => [[]]
  | c :: cs =>
    if c == sep then [] :: splitChars sep cs
    else
      match splitChars sep cs with
      | [] => [[c]]
      | g :: gs => (c :: g) :: gs

/-- Model of Go strings.Split(s, ","). -/
def splitCommaStr (s : String) : List String := (splitChars ',' s.data).map String.mk

/-- Split at the first occurrence of sep: returns the part before it and,
when sep occurs, the remainder after it. -/
def splitFirstChar (sep : Char) : List Char → List Char × Option (List Char)
  | [] => ([], none)
  | c :: cs =>
    if c == sep then ([], some cs)
    else
      let r := splitFirstChar sep cs
      (c :: r.1, r.2)

/-- Model of Go strings.SplitN(s, sep, n) for n ≥ 1: at most n parts, the last
part keeping the unsplit remainder. -/
def splitLimitChars (sep : Char) : Nat → List Char → List (List Char)
  | 0, _ => []
  | 1, l => [l]
  | n + 2, l =>
    match splitFirstChar sep l with
    | (pre, none) => [pre]
    | (pre, some rest) => pre :: splitLimitChars sep (n + 1) rest

/-! ## Billing configuration model (handler/log_handler.go) -/

/-- models.BillingConfig restricted to the fields the matching engine reads. -/
structure BillingConfig where
  billKey : String
  billingTag : String
  matchType : String
  matchValue : String
  unitPrice : ℚ
  deriving Repr, DecidableEq

/-- indexedBillingConfig: billing rules partitioned by match_type plus the
billing-project tag set (sets modelled as lists). -/
structure IndexedBillingConfig where
  byTag : List BillingConfig
  byRuleName : List BillingConfig
  byLogLineContains : List BillingConfig
  tagSet : List String
  billingTagSet : List String
  deriving Repr, DecidableEq

/-- buildIndexedBillingConfig: partition the configs by match_type, keeping
the query order within each tier (the Go loop appends to one of three slices;
this is exactly a filter per tier). -/
def buildIndexedBillingConfig (configs : List BillingConfig) : IndexedBillingConfig :=
  { byTag := configs.filter (fun cfg => cfg.matchType == "tag")
    byRuleName := configs.filter (fun cfg => cfg.matchType == "rule_name")
    byLogLineContains := configs.filter (fun cfg => cfg.matchType == "log_line_contains")
    tagSet := (configs.filter (fun cfg => cfg.matchType == "tag")).map (fun cfg => cfg.matchValue)
    billingTagSet := [] }

/-- loadBillingTagSet: the names of the tags under the billing project,
skipping empty names and trimming the rest. -/
def loadBillingTagSet (names : List String) : List String :=
  (names.filter (fun n => n != "")).map strTrim

/-- parseLogTags: split a comma-joined tag field, trim each part, drop empties. -/
def parseLogTags (s : String) : List String :=
  if s == "" then []
  else ((splitCommaStr s).map strTrim).filter (fun t => t != "")

/-- billingTagContains: does the comma-joined billing_tag list contain tag
(after trimming both sides)? -/
def billingTagContains (billingTagStr tag : String) : Bool :=
  let t := strTrim tag
  if t == "" then false
  else (splitCommaStr billingTagStr).any (fun x => strTrim x == t)

/-- anyLogTagInBillingTag: is some event tag listed in the rule's billing_tag? -/
def anyLogTagInBillingTag (logTags : List String) (billingTagStr : String) : Bool :=
  logTags.any (fun t => billingTagContains billingTagStr t)

/-- isBillingTag: the event is billable when some comma-split tag belongs to
the billing project's tag set. -/
def isBillingTag (tagStr : String) (idx : IndexedBillingConfig) : Bool :=
  let tags := parseLogTags tagStr
  if tags.isEmpty then false
  else tags.any (fun t => idx.billingTagSet.contains t)

/-- ReceiveLogRequest: one wire event (HTTP / TCP / UDP share this shape). -/
structure ReceiveLogRequest where
  timestamp : Int
  ruleName : String
  ruleDesc : String
  logLine : String
  logFile : String
  pattern : String
  tag : String
  secret : String
  apiKey : String
  transport : String
  deriving Repr, DecidableEq

/-- matchBillingConfigs: three-tier accumulation in index order.  byTag rules
match when some event tag is listed in the rule's billing_tag and equals the
match_value or contains it; byRuleName / byLogLineContains rules share the
billing_tag gate and do a substring test on rule_name / log_line. -/
def matchBillingConfigs (req : ReceiveLogRequest) (idx : IndexedBillingConfig) :
    List BillingConfig :=
  let logTags := parseLogTags req.tag
  if logTags.isEmpty then []
  else
    (idx.byTag.filter (fun cfg =>
        anyLogTagInBillingTag logTags cfg.billingTag &&
        logTags.any (fun t =>
          billingTagContains cfg.billingTag t &&
          (cfg.matchValue == t || strContains t cfg.matchValue))))
    ++ (idx.byRuleName.filter (fun cfg =>
        anyLogTagInBillingTag logTags cfg.billingTag &&
        strContains req.ruleName cfg.matchValue))
    ++ (idx.byLogLineContains.filter (fun cfg =>
        anyLogTagInBillingTag logTags cfg.billingTag &&
        strContains req.logLine cfg.matchValue))

/-! ## Reference (spec-worded) matcher, used only to state the C2 refinement -/

/-- The billing-tag set of one rule, read as the spec words it: the comma list
of its billing_tag field. -/
def specRuleTagSet (cfg : BillingConfig) : List String := parseLogTags cfg.billingTag

/-- Reference three-tier matcher written from the spec's words: tiers in fixed
order over the full rule list, accumulating all matches. -/
def refMatchBillingConfigs (req : ReceiveLogRequest) (configs : List BillingConfig) :
    List BillingConfig :=
  let eventTags := parseLogTags req.tag
  (configs.filter (fun c => c.matchType == "tag" &&
      eventTags.any (fun t => (specRuleTagSet c).contains t &&
        (c.matchValue == t || strContains t c.matchValue))))
  ++ (configs.filter (fun c => c.matchType == "rule_name" &&
      eventTags.any (fun t => (specRuleTagSet c).contains t) &&
      strContains req.ruleName c.matchValue))
  ++ (configs.filter (fun c => c.matchType == "log_line_contains" &&
      eventTags.any (fun t => (specRuleTagSet c).contains t) &&
      strContains req.logLine c.matchValue))

/-! ## BillingConfigCache (handler/log_handler.go) -/

/-- BillingConfigCache state: the cached index (if any), the instant it was
loaded, and the TTL.  Instants and durations are integers (Go stores both as
int64 nanosecond counts). -/
structure CacheState where
  indexed : Option IndexedBillingConfig
  loadedAt : Int
  ttl : Int
  deriving Repr, DecidableEq

/-- BillingConfigCache.get: serve the cached index while fresh; otherwise
rebuild from storage.  dbRead models the storage read of the billing_configs
table together with the billing-project tag names (the tag-name query swallows
its own errors, so only the config query can fail).  On a failed read the
error is returned and the state is left untouched. -/
def cacheGet (c : CacheState) (now : Int)
    (dbRead : Except String (List BillingConfig × List String)) :
    Except String IndexedBillingConfig × CacheState :=
  match c.indexed with
  | some idx =>
    if now - c.loadedAt < c.ttl then (Except.ok idx, c)
    else
      match dbRead with
      | Except.error e => (Except.error e, c)
      | Except.ok (configs, names) =>
        let idx2 := { buildIndexedBillingConfig configs with
                        billingTagSet := loadBillingTagSet names }
        (Except.ok idx2, { c with indexed := some idx2, loadedAt := now })
  | none =>
    match dbRead with
    | Except.error e => (Except.error e, c)
    | Except.ok (configs, names) =>
      let idx2 := { buildIndexedBillingConfig configs with
                      billingTagSet := loadBillingTagSet names }
      (Except.ok idx2, { c with indexed := some idx2, loadedAt := now })

/-! ## Persistent store model and ProcessLogBatch -/

/-- models.LogEntry restricted to the fields the ingestion path writes. -/
structure LogEntryM where
  timestamp : Int
  ruleName : String
  ruleDesc : String
  logLine : String
  logFile : String
  pattern : String
  tag : String
  source : String
  deriving Repr, DecidableEq

/-- models.BillingEntry: the daily aggregate row keyed by (date, bill_key, tag). -/
structure BillingEntryM where
  date : String
  billKey : String
  tag : String
  count : Int
  amount : ℚ
  deriving Repr, DecidableEq

/-- The persisted tables the flush touches: billing_entries, log_entries and
tag_log_counts (association list tag → count). -/
structure Store where
  billing : List BillingEntryM
  logEntries : List LogEntryM
  tagCounts : List (String × Int)
  deriving Repr, DecidableEq

/-- The LogEntry row built from one non-billable request (source "agent"). -/
def mkLogEntry (req : ReceiveLogRequest) : LogEntryM :=
  { timestamp := req.timestamp, ruleName := req.ruleName, ruleDesc := req.ruleDesc
    logLine := req.logLine, logFile := req.logFile, pattern := req.pattern
    tag := req.tag, source := "agent" }

/-- Per-event classification step of ProcessLogBatch: a non-billable event
contributes one LogEntry; a billable event with matches contributes one
(date|bill_key|tag, unit_price) aggregate increment per matched rule; a
billable event with no match contributes one unmatched-ring Add call
(tag, rule_name, log_line).  dateOf models time.Unix(ts,0).Format over the
local calendar (environment-dependent, so kept abstract). -/
def classifyEvent (dateOf : Int → String) (idx : IndexedBillingConfig)
    (req : ReceiveLogRequest) :
    List LogEntryM × List (String × ℚ) × List (String × String × String) :=
  let tag := strTrim req.tag
  if isBillingTag req.tag idx then
    let matched := matchBillingConfigs req idx
    if 0 < matched.length then
      ([], matched.map (fun cfg =>
          (dateOf req.timestamp ++ "|" ++ cfg.billKey ++ "|" ++ tag, cfg.unitPrice)), [])
    else ([], [], [(tag, req.ruleName, req.logLine)])
  else ([mkLogEntry req], [], [])

/-- ProcessLogBatch truncates over-long input: at most 100 events per call. -/
def processedLogs (logs : List ReceiveLogRequest) : List ReceiveLogRequest :=
  logs.take 100

/-- The classification loop of ProcessLogBatch over the (truncated) batch,
accumulating LogEntries, aggregate increments and unmatched-ring Add calls in
event order. -/
def classifyBatch (dateOf : Int → String) (idx : IndexedBillingConfig)
    (logs : List ReceiveLogRequest) :
    List LogEntryM × List (String × ℚ) × List (String × String × String) :=
  (processedLogs logs).foldl
    (fun acc req =>
      let c := classifyEvent dateOf idx req
      (acc.1 ++ c.1, acc.2.1 ++ c.2.1, acc.2.2 ++ c.2.2))
    ([], [], [])

/-- Fold the per-match increments into the agg map (key → count, amount).
Go map iteration order is unspecified; the model keeps first-touch order. -/
def aggFold (incs : List (String × ℚ)) : List (String × Int × ℚ) :=
  incs.foldl
    (fun m kv =>
      if m.any (fun p => p.1 == kv.1) then
        m.map (fun p => if p.1 == kv.1 then (p.1, p.2.1 + 1, p.2.2 + kv.2) else p)
      else m ++ [(kv.1, 1, kv.2)])
    []

/-- Turn one agg pair back into a BillingEntry row, splitting the key on the
first two pipes as strings.SplitN(key, "|", 3) does; keys with fewer than two
parts are skipped. -/
def aggToEntries (agg : List (String × Int × ℚ)) : List BillingEntryM :=
  agg.filterMap (fun kv =>
    let parts := (splitLimitChars '|' 3 kv.1.data).map String.mk
    if parts.length < 2 then none
    else some { date := parts.getD 0 "", billKey := parts.getD 1 ""
                tag := if parts.length = 3 then parts.getD 2 "" else ""
                count := kv.2.1, amount := kv.2.2 })

/-- Upsert one BillingEntry on the (date, bill_key, tag) unique key, adding
count and amount on conflict. -/
def upsertBillingEntry (rows : List BillingEntryM) (e : BillingEntryM) :
    List BillingEntryM :=
  if rows.any (fun b => b.date == e.date && b.billKey == e.billKey && b.tag == e.tag) then
    rows.map (fun b =>
      if b.date == e.date && b.billKey == e.billKey && b.tag == e.tag then
        { b with count := b.count + e.count, amount := b.amount + e.amount }
      else b)
  else rows ++ [e]

/-- Look up a tag's running count row. -/
def lookupTagCount (s : List (String × Int)) (tag : String) : Option Int :=
  (s.find? (fun p => p.1 == tag)).map (fun p => p.2)

/-- One step of IncrByTagDeltas: skip blank tags and non-positive deltas,
upsert count += delta otherwise. -/
def incrOneTag (s : List (String × Int)) (tag : String) (delta : Int) :
    List (String × Int) :=
  let t := strTrim tag
  if t == "" || delta ≤ 0 then s
  else
    match lookupTagCount s t with
    | some _ => s.map (fun p => if p.1 == t then (p.1, p.2 + delta) else p)
    | none => s ++ [(t, delta)]

/-- IncrByTagDeltas over a delta list (Go iterates a map; the model fixes the
list order, which the per-tag result does not depend on). -/
def incrTagDeltas (s : List (String × Int)) (deltas : List (String × Int)) :
    List (String × Int) :=
  deltas.foldl (fun acc d => incrOneTag acc d.1 d.2) s

/-- One step of DecrByTagDeltas: skip blank tags and non-negative deltas;
existing rows are clamped at zero (CASE WHEN count + d < 0 THEN 0), absent
rows are untouched. -/
def decrOneTag (s : List (String × Int)) (tag : String) (delta : Int) :
    List (String × Int) :=
  let t := strTrim tag
  if t == "" || 0 ≤ delta then s
  else s.map (fun p => if p.1 == t then (p.1, max 0 (p.2 + delta)) else p)

/-- DecrByTagDeltas over a delta list. -/
def decrTagDeltas (s : List (String × Int)) (deltas : List (String × Int)) :
    List (String × Int) :=
  deltas.foldl (fun acc d => decrOneTag acc d.1 d.2) s

/-- The per-tag insert deltas of a LogEntry batch: one increment per comma
split tag per entry, first-occurrence order. -/
def tagDeltasOf (les : List LogEntryM) : List (String × Int) :=
  les.foldl
    (fun m e =>
      (parseLogTags e.tag).foldl
        (fun m2 t =>
          if m2.any (fun p => p.1 == t) then
            m2.map (fun p => if p.1 == t then (p.1, p.2 + 1) else p)
          else m2 ++ [(t, 1)])
        m)
    []

/-- Failure oracle for the three durable writes of one flush. -/
structure FailSpec where
  billingFail : Bool
  logFail : Bool
  tagFail : Bool
  deriving Repr, DecidableEq

/-- The transaction body of ProcessLogBatch: billing upserts, then the
LogEntry batch insert, then the TagLogCount increments, accumulating
successCount exactly as the Go closure does (the count survives a later
failing step because it lives outside the transaction).  Returns the written
store, the accumulated successCount and the first error. -/
def flushTx (fs : FailSpec) (aggEntries : List BillingEntryM) (aggTotal : Int)
    (les : List LogEntryM) (deltas : List (String × Int)) (st : Store) :
    Store × Int × Option String :=
  let step1 : Store × Int × Option String :=
    if aggEntries.isEmpty then (st, 0, none)
    else if fs.billingFail then (st, 0, some "billing upsert failed")
    else ({ st with billing := aggEntries.foldl upsertBillingEntry st.billing },
          aggTotal, none)
  match step1 with
  | (st1, cnt1, some e) => (st1, cnt1, some e)
  | (st1, cnt1, none) =>
    if les.isEmpty then (st1, cnt1, none)
    else if fs.logFail then (st1, cnt1, some "log insert failed")
    else
      let st2 := { st1 with logEntries := st1.logEntries ++ les }
      let cnt2 := cnt1 + les.length
      if deltas.isEmpty then (st2, cnt2, none)
      else if fs.tagFail then (st2, cnt2, some "tag count update failed")
      else ({ st2 with tagCounts := incrTagDeltas st2.tagCounts deltas }, cnt2, none)

/-- Modelled from the spec: the storage contract's transactional primitive
(db.Transaction is outside the repository).  Per the spec's storage contract,
a transaction whose body errors rolls every write back: the caller observes
the pre-transaction store together with the error. -/
def runFlushTransaction (fs : FailSpec) (aggEntries : List BillingEntryM)
    (aggTotal : Int) (les : List LogEntryM) (deltas : List (String × Int))
    (st : Store) : Store × Int × Option String :=
  match flushTx fs aggEntries aggTotal les deltas st with
  | (st1, cnt, none) => (st1, cnt, none)
  | (_, cnt, some e) => (st, cnt, some e)

/-- The outputs of one ProcessLogBatch call: the returned counts and error,
the post-call store and the unmatched-ring Add calls issued. -/
structure BatchResult where
  successCount : Int
  failedCount : Int
  store : Store
  unmatchedAdds : List (String × String × String)
  err : Option String
  deriving Repr, DecidableEq

/-- ProcessLogBatch: empty input returns immediately; the billing index comes
from the cache (a cache error fails the batch); the batch is truncated to 100
events, classified, and the durable writes run inside one transaction.
failedCount is never incremented by the code. -/
def processLogBatchM (dateOf : Int → String) (cache : CacheState) (now : Int)
    (dbRead : Except String (List BillingConfig × List String)) (fs : FailSpec)
    (st : Store) (logs : List ReceiveLogRequest) : BatchResult :=
  if logs.isEmpty then
    { successCount := 0, failedCount := 0, store := st, unmatchedAdds := [], err := none }
  else
    match (cacheGet cache now dbRead).1 with
    | Except.error e =>
      { successCount := 0, failedCount := 0, store := st, unmatchedAdds := [], err := some e }
    | Except.ok idx =>
      let c := classifyBatch dateOf idx logs
      let agg := aggFold c.2.1
      let aggTotal : Int := agg.foldl (fun a kv => a + kv.2.1) 0
      let r := runFlushTransaction fs (aggToEntries agg) aggTotal c.1
                 (tagDeltasOf c.1) st
      { successCount := r.2.1, failedCount := 0, store := r.1
        unmatchedAdds := c.2.2, err := r.2.2 }

/-! ## Token-bucket rate limiter (middleware/ratelimit.go) -/

/-- Go int(float) truncates toward zero; on rationals that is floor for
non-negative values and the negated floor of the negation otherwise. -/
def truncQ (q : ℚ) : Int := if q < 0 then -(Int.floor (-q)) else Int.floor q

/-- RateLimiter state: integer rate, capacity, tokens, and the last-update
instant (rational seconds). -/
structure RateLimiterM where
  rate : Int
  capacity : Int
  tokens : Int
  lastUpdate : ℚ
  deriving Repr, DecidableEq

/-- NewRateLimiter: a non-positive capacity defaults to the rate; the bucket
starts full. -/
def newRateLimiter (rate capacity : Int) (now : ℚ) : RateLimiterM :=
  let cap := if capacity ≤ 0 then rate else capacity
  { rate := rate, capacity := cap, tokens := cap, lastUpdate := now }

/-- Allow: lazily refill ⌊elapsed·rate⌋ tokens (capped at capacity, and the
clock only advances when at least one token was added), then take a token if
one is available. -/
def rlAllow (rl : RateLimiterM) (now : ℚ) : Bool × RateLimiterM :=
  let elapsed := now - rl.lastUpdate
  let tokensToAdd : Int := truncQ (elapsed * (rl.rate : ℚ))
  let rl2 :=
    if 0 < tokensToAdd then
      { rl with tokens := min (rl.tokens + tokensToAdd) rl.capacity, lastUpdate := now }
    else rl
  if 0 < rl2.tokens then (true, { rl2 with tokens := rl2.tokens - 1 })
  else (false, rl2)

/-- A sequence of Allow calls at the given instants, collecting the results. -/
def rlRun (rl : RateLimiterM) (times : List ℚ) : List Bool × RateLimiterM :=
  times.foldl (fun acc t =>
    (acc.1 ++ [(rlAllow acc.2 t).1], (rlAllow acc.2 t).2)) ([], rl)

/-! ## TagLogCount operation sequences (taglogcount + cleanup/retention.go) -/

/-- One storage operation on tag_log_counts: an insert-batch increment
(IncrByTagDeltas) or a retention decrement (DecrByTagDeltas). -/
inductive TagCountOp where
  | incr (deltas : List (String × Int))
  | decr (deltas : List (String × Int))
  deriving Repr, DecidableEq

/-- Apply one operation to the tag_log_counts table. -/
def applyTagOp (s : List (String × Int)) : TagCountOp → List (String × Int)
  | TagCountOp.incr deltas => incrTagDeltas s deltas
  | TagCountOp.decr deltas => decrTagDeltas s deltas

/-- Apply a whole operation sequence. -/
def applyTagOps (s : List (String × Int)) (ops : List TagCountOp) :
    List (String × Int) :=
  ops.foldl applyTagOp s

/-- The observable TagLogCount of a tag: the stored count, 0 when no row. -/
def tagLogCount (s : List (String × Int)) (tag : String) : Int :=
  (lookupTagCount s tag).getD 0

/-- All stored counts are non-negative. -/
def nonnegCounts (s : List (String × Int)) : Prop := ∀ p ∈ s, 0 ≤ p.2

/-! ## Unmatched-classification ring (unmatchedqueue) -/

/-- UnmatchedItem: the aggregated record for one (tag, rule_name) key. -/
structure UItem where
  tag : String
  ruleName : String
  logLineSample : String
  count : Int
  lastSeen : Int
  deriving Repr, DecidableEq

/-- Queue state: key-indexed items plus insertion order, bounded by maxSize. -/
structure QueueM where
  items : List (String × UItem)
  order : List String
  maxSize : Nat
  deriving Repr, DecidableEq

/-- key: tag and rule_name joined by a NUL byte. -/
def qKey (tag ruleName : String) : String := tag ++ "\x00" ++ ruleName

/-- New: non-positive maxSize defaults to 5000. -/
def qNew (maxSize : Int) : QueueM :=
  { items := [], order := [], maxSize := if maxSize ≤ 0 then 5000 else maxSize.toNat }

/-- Samples longer than 500 characters are truncated with an ellipsis. -/
def truncateSample (logLine : String) : String :=
  if 500 < logLine.length then (String.mk (logLine.data.take 500)) ++ "..." else logLine

/-- Association-list lookup by key. -/
def lookupItem (items : List (String × UItem)) (k : String) : Option UItem :=
  (items.find? (fun p => p.1 == k)).map (fun p => p.2)

/-- delete(items, k). -/
def eraseItem (items : List (String × UItem)) (k : String) :
    List (String × UItem) :=
  items.filter (fun p => !(p.1 == k))

/-- In-place update of the item stored under k. -/
def updateItem (items : List (String × UItem)) (k : String) (f : UItem → UItem) :
    List (String × UItem) :=
  items.map (fun p => if p.1 == k then (p.1, f p.2) else p)

/-- Queue.Add: empty tag+rule is ignored; an existing key bumps count and
refreshes sample/last-seen; a new key first evicts the oldest entry when at
capacity, then appends. -/
def qAdd (q : QueueM) (now : Int) (tag ruleName logLine : String) : QueueM :=
  if tag == "" && ruleName == "" then q
  else
    let k := qKey tag ruleName
    let sample := truncateSample logLine
    match lookupItem q.items k with
    | some _ =>
      { q with items := updateItem q.items k (fun it =>
          { it with count := it.count + 1, logLineSample := sample, lastSeen := now }) }
    | none =>
      let q1 :=
        if q.maxSize ≤ q.order.length then
          match q.order with
          | [] => q
          | oldest :: rest => { q with order := rest, items := eraseItem q.items oldest }
        else q
      { q1 with
          items := q1.items ++ [(k, { tag := tag, ruleName := ruleName
                                      logLineSample := sample, count := 1, lastSeen := now })]
          order := q1.order ++ [k] }

/-- Queue.Snapshot: walk the order list from the newest end, collecting up to
limit items (limit ≤ 0 means all). -/
def qSnapshot (q : QueueM) (limit : Int) : List UItem :=
  let n := if 0 < limit ∧ (limit : Int) < (q.order.length : Int)
           then limit.toNat else q.order.length
  ((q.order.reverse).filterMap (fun k => lookupItem q.items k)).take n

/-- Well-formedness maintained by the queue: the item keys are exactly the
order list (same sequence) and keys are not duplicated. -/
def qWF (q : QueueM) : Prop :=
  q.items.map (fun p => p.1) = q.order ∧ q.order.Nodup

/-! ## TCP frame handling (tcpserver/server.go, handleConn) -/

/-- The maximum accepted frame payload length: 4 MiB. -/
def maxFrameSize : Nat := 4 * 1024 * 1024

/-- checkSecret: no configured secret accepts everything; otherwise the
event's secret (or, when empty, its api_key) must equal the configured one. -/
def checkSecret (cfgSecret : String) (req : ReceiveLogRequest) : Bool :=
  if cfgSecret == "" then true
  else (if req.secret == "" then req.apiKey else req.secret) == cfgSecret

/-- The logs extracted from one frame payload.  singleParse / batchParse model
the two json.Unmarshal attempts: a parse failure is none.  A parsed single
event counts only with a non-empty log_line and non-zero timestamp; otherwise
the batch shape is tried and counts only when non-empty. -/
def framePayloadLogs (singleParse : Option ReceiveLogRequest)
    (batchParse : Option (List ReceiveLogRequest)) : List ReceiveLogRequest :=
  let fromBatch : List ReceiveLogRequest :=
    match batchParse with
    | some l => if 0 < l.length then l else []
    | none => []
  match singleParse with
  | some s => if s.logLine ≠ "" ∧ s.timestamp ≠ 0 then [s] else fromBatch
  | none => fromBatch

/-- What one loop iteration of handleConn does with a frame. -/
inductive FrameOutcome where
  | terminate
  | continueConn (enqueued : List ReceiveLogRequest)
  deriving Repr, DecidableEq

/-- One handleConn iteration after the length word is read: a declared length
of 0 or above 4 MiB closes the connection; otherwise the payload's events are
validated (timestamp, log_line, secret), marked transport=tcp, and enqueued;
an unparseable payload enqueues nothing and the loop continues. -/
def handleFrame (cfgSecret : String) (payloadLen : Nat)
    (singleParse : Option ReceiveLogRequest)
    (batchParse : Option (List ReceiveLogRequest)) : FrameOutcome :=
  if payloadLen = 0 ∨ maxFrameSize < payloadLen then FrameOutcome.terminate
  else
    let logs := framePayloadLogs singleParse batchParse
    if logs.isEmpty then FrameOutcome.continueConn []
    else
      FrameOutcome.continueConn
        ((logs.filter (fun r => !(r.timestamp == 0 || r.logLine == "") &&
            checkSecret cfgSecret r)).map (fun r => { r with transport := "tcp" }))

/-! ## Concrete fixtures used by the witness theorems -/

/-- A non-billable sample event (tag "ops"). -/
def reqOps : ReceiveLogRequest :=
  { timestamp := 1, ruleName := "r", ruleDesc := "", logLine := "l", logFile := ""
    pattern := "", tag := "ops", secret := "", apiKey := "", transport := "" }

/-- A billable sample event (tag "b"). -/
def reqBill : ReceiveLogRequest := { reqOps with tag := "b" }

/-- A tag-match rule billing the "b" tag. -/
def cfgTag : BillingConfig :=
  { billKey := "k", billingTag := "b", matchType := "tag", matchValue := "b", unitPrice := 1 }

/-- An index with billing tag "b" and no rules. -/
def idxNoRules : IndexedBillingConfig :=
  { buildIndexedBillingConfig [] with billingTagSet := ["b"] }

/-- An index with billing tag "b" and the one tag rule. -/
def idxOneRule : IndexedBillingConfig :=
  { buildIndexedBillingConfig [cfgTag] with billingTagSet := ["b"] }

/-- The empty store. -/
def emptyStore : Store := { billing := [], logEntries := [], tagCounts := [] }

/-- A constant date function (the calendar rendering is irrelevant here). -/
def dateD : Int → String := fun _ => "d"

/-- A cache state holding a stale copy (loaded at 0, TTL 60, read at 100). -/
def cacheStale : CacheState := { indexed := some idxNoRules, loadedAt := 0, ttl := 60 }

/-- Failure oracle: only the LogEntry insert fails. -/
def fsLogFail : FailSpec := { billingFail := false, logFail := true, tagFail := false }

/-- Failure oracle: every write succeeds. -/
def fsAllOk : FailSpec := { billingFail := false, logFail := false, tagFail := false }

/-- A two-entry queue at capacity 2 (keys "a"/"r" and "b"/"r"). -/
def qAtCap : QueueM :=
  qAdd (qAdd (qNew 2) 1 "a" "r" "la") 2 "b" "r" "lb"

/-! ## Helper lemmas: trimming and tag parsing -/

theorem beq_comm_str (a b : String) : (a == b) = (b == a) := by
  by_cases h : a = b
  · subst h; rfl
  · rw [beq_eq_false_iff_ne.mpr h, beq_eq_false_iff_ne.mpr (Ne.symm h)]

theorem dropWhile_dropWhile (p : Char → Bool) (l : List Char) :
    List.dropWhile p (List.dropWhile p l) = List.dropWhile p l := by
  induction l with
  | nil => rfl
  | cons a as ih =>
    by_cases h : p a = true
    · simp [List.dropWhile_cons, h, ih]
    · simp only [Bool.not_eq_true] at h
      simp [List.dropWhile_cons, h]

theorem dropWhile_append_single (p : Char → Bool) {a : Char} (h : p a = false)
    (l : List Char) : List.dropWhile p (l ++ [a]) = List.dropWhile p l ++ [a] := by
  induction l with
  | nil => simp [List.dropWhile_cons, h]
  | cons x xs ih =>
    by_cases hx : p x = true
    · simp [List.dropWhile_cons, hx, ih]
    · simp only [Bool.not_eq_true] at hx
      simp [List.dropWhile_cons, hx]

theorem dropWhile_dropRightWhile (p : Char → Bool) (l : List Char)
    (h : List.dropWhile p l = l) :
    List.dropWhile p (dropRightWhile p l) = dropRightWhile p l := by
  cases l with
  | nil => rfl
  | cons a as =>
    have ha : p a = false := by
      by_contra hc
      have hpa : p a = true := by revert hc; cases p a <;> simp
      rw [List.dropWhile_cons, if_pos hpa] at h
      have hle := (List.dropWhile_sublist (p := p) (l := as)).length_le
      rw [h] at hle
      simp at hle
    have key : dropRightWhile p (a :: as) =
        a :: (List.dropWhile p as.reverse).reverse := by
      unfold dropRightWhile
      rw [List.reverse_cons, dropWhile_append_single p ha, List.reverse_append]
      simp
    rw [key, List.dropWhile_cons, if_neg (by simp [ha])]

theorem dropRightWhile_idem (p : Char → Bool) (l : List Char) :
    dropRightWhile p (dropRightWhile p l) = dropRightWhile p l := by
  unfold dropRightWhile
  rw [List.reverse_reverse, dropWhile_dropWhile]

theorem trimChars_idem (l : List Char) : trimChars (trimChars l) = trimChars l := by
  unfold trimChars
  rw [dropWhile_dropRightWhile _ _ (dropWhile_dropWhile _ _), dropRightWhile_idem]

theorem strTrim_idem (s : String) : strTrim (strTrim s) = strTrim s := by
  unfold strTrim
  exact congrArg String.mk (trimChars_idem s.data)

theorem mem_parseLogTags {s t : String} (h : t ∈ parseLogTags s) :
    strTrim t = t ∧ t ≠ "" := by
  unfold parseLogTags at h
  by_cases hs : s == ""
  · simp [hs] at h
  · rw [if_neg hs] at h
    rcases List.mem_filter.mp h with ⟨hmem, hne⟩
    rcases List.mem_map.mp hmem with ⟨x, _, hx⟩
    constructor
    · rw [← hx, strTrim_idem]
    · exact bne_iff_ne.mp hne

theorem contains_trimmed (l : List String) (t : String) (hne : t ≠ "") :
    ((l.map strTrim).filter (fun x => x != "")).contains t
      = l.any (fun x => strTrim x == t) := by
  induction l with
  | nil => rfl
  | cons x xs ih =>
    simp only [List.map_cons, List.filter_cons, List.any_cons]
    by_cases hx : strTrim x = ""
    · have hcond : (strTrim x != "") = false := by rw [hx]; rfl
      rw [hcond, if_neg (by simp)]
      rw [ih, hx]
      rw [show (("" : String) == t) = false from beq_eq_false_iff_ne.mpr (Ne.symm hne)]
      rw [Bool.false_or]
    · have hcond : (strTrim x != "") = true := bne_iff_ne.mpr hx
      rw [hcond, if_pos rfl, List.contains_cons, ih, beq_comm_str]

theorem billingTagContains_eq_contains (b t : String) (ht : strTrim t = t)
    (hne : t ≠ "") : billingTagContains b t = (parseLogTags b).contains t := by
  have hbt : billingTagContains b t = (splitCommaStr b).any (fun x => strTrim x == t) := by
    unfold billingTagContains
    rw [ht, if_neg (by simpa using hne)]
  rw [hbt]
  by_cases hb : b = ""
  · subst hb
    rw [show splitCommaStr "" = [""] from rfl]
    rw [show parseLogTags "" = [] from rfl]
    simp only [List.any_cons, List.any_nil, Bool.or_false]
    rw [show strTrim "" = "" from rfl]
    rw [show List.contains ([] : List String) t = false from rfl]
    exact beq_eq_false_iff_ne.mpr (Ne.symm hne)
  · have hbne : (b == "") = false := beq_eq_false_iff_ne.mpr hb
    rw [show parseLogTags b = ((splitCommaStr b).map strTrim).filter (fun x => x != "") from by
      unfold parseLogTags
      rw [if_neg (by simp [hbne])]]
    exact (contains_trimmed (splitCommaStr b) t hne).symm

theorem any_congr_mem {α : Type} {l : List α} {f g : α → Bool}
    (h : ∀ a ∈ l, f a = g a) : l.any f = l.any g := by
  induction l with
  | nil => rfl
  | cons a as ih =>
    simp only [List.any_cons, h a (by simp)]
    rw [ih fun b hb => h b (by simp [hb])]

theorem any_and_absorb {α : Type} (l : List α) (p q : α → Bool) :
    (l.any p && l.any (fun a => p a && q a)) = l.any (fun a => p a && q a) := by
  by_cases h : l.any (fun a => p a && q a) = true
  · rw [h, Bool.and_true]
    rcases List.any_eq_true.mp h with ⟨a, ha, hpq⟩
    simp only [Bool.and_eq_true] at hpq
    exact List.any_eq_true.mpr ⟨a, ha, hpq.1⟩
  · have h2 : l.any (fun a => p a && q a) = false := by
      revert h; cases l.any (fun a => p a && q a) <;> simp
    rw [h2, Bool.and_false]

/-- C2: for every event whose comma-split tags meet the billing-tag set, the
rule list returned by matchBillingConfigs over the match-type-partitioned
index equals the spec's three-tier reference matcher evaluated in fixed tier
order over the full rule list, accumulating all matches. -/
theorem c2_matchBillingConfigs_refines_spec (req : ReceiveLogRequest)
    (configs : List BillingConfig) (bset : List String)
    (h : isBillingTag req.tag
      { buildIndexedBillingConfig configs with billingTagSet := bset } = true) :
    matchBillingConfigs req
      { buildIndexedBillingConfig configs with billingTagSet := bset }
      = refMatchBillingConfigs req configs := by
  have hT : ∀ t ∈ parseLogTags req.tag, strTrim t = t ∧ t ≠ "" :=
    fun t ht => mem_parseLogTags ht
  have hTne : (parseLogTags req.tag).isEmpty = false := by
    unfold isBillingTag at h
    by_cases he : (parseLogTags req.tag).isEmpty
    · rw [if_pos he] at h; exact absurd h (by simp)
    · revert he; cases (parseLogTags req.tag).isEmpty <;> simp
  have gateEq : ∀ c : BillingConfig,
      anyLogTagInBillingTag (parseLogTags req.tag) c.billingTag
        = (parseLogTags req.tag).any (fun t => (specRuleTagSet c).contains t) := by
    intro c
    rw [show anyLogTagInBillingTag (parseLogTags req.tag) c.billingTag
        = (parseLogTags req.tag).any (fun t => billingTagContains c.billingTag t) from rfl]
    refine any_congr_mem ?_
    intro t ht
    rcases hT t ht with ⟨h1, h2⟩
    exact billingTagContains_eq_contains _ _ h1 h2
  unfold matchBillingConfigs refMatchBillingConfigs
  rw [if_neg (by simp [hTne])]
  rw [show (buildIndexedBillingConfig configs).byTag
      = configs.filter (fun cfg => cfg.matchType == "tag") from rfl]
  rw [show (buildIndexedBillingConfig configs).byRuleName
      = configs.filter (fun cfg => cfg.matchType == "rule_name") from rfl]
  rw [show (buildIndexedBillingConfig configs).byLogLineContains
      = configs.filter (fun cfg => cfg.matchType == "log_line_contains") from rfl]
  have htier1 : (configs.filter (fun cfg => cfg.matchType == "tag")).filter
      (fun cfg => anyLogTagInBillingTag (parseLogTags req.tag) cfg.billingTag &&
        (parseLogTags req.tag).any (fun t => billingTagContains cfg.billingTag t &&
          (cfg.matchValue == t || strContains t cfg.matchValue)))
      = configs.filter (fun c => c.matchType == "tag" &&
          (parseLogTags req.tag).any (fun t => (specRuleTagSet c).contains t &&
            (c.matchValue == t || strContains t c.matchValue))) := by
    rw [List.filter_filter]
    refine List.filter_congr ?_
    intro c _
    rw [Bool.and_comm]
    refine congrArg (fun b => (c.matchType == "tag") && b) ?_
    rw [show anyLogTagInBillingTag (parseLogTags req.tag) c.billingTag
        = (parseLogTags req.tag).any (fun t => billingTagContains c.billingTag t) from rfl]
    rw [any_and_absorb]
    refine any_congr_mem ?_
    intro t ht
    rcases hT t ht with ⟨h1, h2⟩
    rw [billingTagContains_eq_contains _ _ h1 h2]
    rfl
  have hshuffle : ∀ x y z : Bool, ((x && z) && y) = ((y && x) && z) := by decide
  have htier2 : (configs.filter (fun cfg => cfg.matchType == "rule_name")).filter
      (fun cfg => anyLogTagInBillingTag (parseLogTags req.tag) cfg.billingTag &&
        strContains req.ruleName cfg.matchValue)
      = configs.filter (fun c =>
          (c.matchType == "rule_name" &&
            (parseLogTags req.tag).any (fun t => (specRuleTagSet c).contains t)) &&
            strContains req.ruleName c.matchValue) := by
    rw [List.filter_filter]
    refine List.filter_congr ?_
    intro c _
    rw [gateEq c]
    exact hshuffle _ _ _
  have htier3 : (configs.filter (fun cfg => cfg.matchType == "log_line_contains")).filter
      (fun cfg => anyLogTagInBillingTag (parseLogTags req.tag) cfg.billingTag &&
        strContains req.logLine cfg.matchValue)
      = configs.filter (fun c =>
          (c.matchType == "log_line_contains" &&
            (parseLogTags req.tag).any (fun t => (specRuleTagSet c).contains t)) &&
            strContains req.logLine c.matchValue) := by
    rw [List.filter_filter]
    refine List.filter_congr ?_
    intro c _
    rw [gateEq c]
    exact hshuffle _ _ _
  rw [htier1, htier2, htier3]

/-- C2 witness: the refinement instantiated on a concrete billable event and
one tag rule. -/
theorem c2_matchBillingConfigs_refines_spec_witness :
    isBillingTag reqBill.tag
      { buildIndexedBillingConfig [cfgTag] with billingTagSet := ["b"] } = true
    ∧ matchBillingConfigs reqBill
        { buildIndexedBillingConfig [cfgTag] with billingTagSet := ["b"] }
        = refMatchBillingConfigs reqBill [cfgTag] :=
  ⟨by decide, c2_matchBillingConfigs_refines_spec reqBill [cfgTag] ["b"] (by decide)⟩

/-- C1: each event of a flush batch yields exactly one outcome — one LogEntry
when no tag is billable, only BillingEntry increments when a billable tag has
matching rules, only one unmatched-ring record when a billable tag matches no
rule; the three cases are mutually exclusive and cover everything. -/
theorem c1_event_trichotomy (dateOf : Int → String) (idx : IndexedBillingConfig)
    (logs : List ReceiveLogRequest) (req : ReceiveLogRequest)
    (_hmem : req ∈ processedLogs logs) :
    (isBillingTag req.tag idx = false →
      classifyEvent dateOf idx req = ([mkLogEntry req], [], []))
    ∧ (isBillingTag req.tag idx = true → 0 < (matchBillingConfigs req idx).length →
        (classifyEvent dateOf idx req).1 = [] ∧
        (classifyEvent dateOf idx req).2.1.length = (matchBillingConfigs req idx).length ∧
        (classifyEvent dateOf idx req).2.2 = [])
    ∧ (isBillingTag req.tag idx = true → (matchBillingConfigs req idx).length = 0 →
        classifyEvent dateOf idx req = ([], [], [(strTrim req.tag, req.ruleName, req.logLine)]))
    ∧ (((classifyEvent dateOf idx req).1.length = 1 ∧
          (classifyEvent dateOf idx req).2.1 = [] ∧ (classifyEvent dateOf idx req).2.2 = [])
        ∨ ((classifyEvent dateOf idx req).1 = [] ∧
            0 < (classifyEvent dateOf idx req).2.1.length ∧
            (classifyEvent dateOf idx req).2.2 = [])
        ∨ ((classifyEvent dateOf idx req).1 = [] ∧
            (classifyEvent dateOf idx req).2.1 = [] ∧
            (classifyEvent dateOf idx req).2.2.length = 1)) := by
  clear _hmem
  refine ⟨?_, ?_, ?_, ?_⟩
  · intro hb
    unfold classifyEvent
    rw [if_neg (by simp [hb])]
  · intro hb hm
    unfold classifyEvent
    rw [if_pos (by simp [hb]), if_pos hm]
    exact ⟨rfl, by simp, rfl⟩
  · intro hb hm
    unfold classifyEvent
    rw [if_pos (by simp [hb]), if_neg (by omega)]
  · unfold classifyEvent
    by_cases hb : isBillingTag req.tag idx
    · rw [if_pos hb]
      by_cases hm : 0 < (matchBillingConfigs req idx).length
      · rw [if_pos hm]
        exact Or.inr (Or.inl ⟨rfl, by simpa using hm, rfl⟩)
      · rw [if_neg hm]
        exact Or.inr (Or.inr ⟨rfl, rfl, rfl⟩)
    · rw [if_neg hb]
      exact Or.inl ⟨rfl, rfl, rfl⟩

/-- C1 witness: the trichotomy instantiated on a concrete batch event. -/
theorem c1_event_trichotomy_witness :
    reqOps ∈ processedLogs [reqOps]
    ∧ (isBillingTag reqOps.tag idxNoRules = false →
        classifyEvent dateD idxNoRules reqOps = ([mkLogEntry reqOps], [], [])) :=
  ⟨by decide, (c1_event_trichotomy dateD idxNoRules [reqOps] reqOps (by decide)).1⟩

theorem runFlush_store_of_err (fs : FailSpec) (ae : List BillingEntryM) (tot : Int)
    (les : List LogEntryM) (ds : List (String × Int)) (st : Store) (e : String)
    (h : (runFlushTransaction fs ae tot les ds st).2.2 = some e) :
    (runFlushTransaction fs ae tot les ds st).1 = st := by
  unfold runFlushTransaction at h ⊢
  rcases hft : flushTx fs ae tot les ds st with ⟨st1, cnt, erropt⟩
  rw [hft] at h
  cases erropt with
  | none => exact Option.noConfusion h
  | some e2 => rfl

theorem runFlush_err_eq (fs : FailSpec) (ae : List BillingEntryM) (tot : Int)
    (les : List LogEntryM) (ds : List (String × Int)) (st : Store) :
    (runFlushTransaction fs ae tot les ds st).2.2 = (flushTx fs ae tot les ds st).2.2 := by
  unfold runFlushTransaction
  rcases hft : flushTx fs ae tot les ds st with ⟨st1, cnt, erropt⟩
  cases erropt <;> rfl

theorem flushTx_ok_err (fs : FailSpec) (ae : List BillingEntryM) (tot : Int)
    (les : List LogEntryM) (ds : List (String × Int)) (st : Store)
    (hb : fs.billingFail = false) (hl : fs.logFail = false) (ht : fs.tagFail = false) :
    (flushTx fs ae tot les ds st).2.2 = none := by
  unfold flushTx
  by_cases ha : ae.isEmpty <;> by_cases hle : les.isEmpty <;>
    by_cases hd : ds.isEmpty <;>
    simp [ha, hle, hd, hb, hl, ht]

theorem processLogBatchM_failed_zero (dateOf : Int → String) (cache : CacheState)
    (now : Int) (dbRead : Except String (List BillingConfig × List String))
    (fs : FailSpec) (st : Store) (logs : List ReceiveLogRequest) :
    (processLogBatchM dateOf cache now dbRead fs st logs).failedCount = 0 := by
  unfold processLogBatchM
  by_cases hl : logs.isEmpty
  · rw [if_pos hl]
  · have hl2 : logs.isEmpty = false := by revert hl; cases logs.isEmpty <;> simp
    rw [hl2]
    simp only [Bool.false_eq_true, if_false]
    cases hcg : (cacheGet cache now dbRead).1 <;> rfl

/-- C3: a batch longer than 100 events is silently truncated: the call behaves
exactly as if only the first 100 events had been submitted — the overflow
events produce no LogEntry, no BillingEntry increment and no unmatched-ring
record, failedCount stays 0, and no error reports the truncation (with
working storage the call still returns err = none). -/
theorem c3_batch_truncated_to_100 (dateOf : Int → String) (cache : CacheState)
    (now : Int) (dbRead : Except String (List BillingConfig × List String))
    (fs : FailSpec) (st : Store) (logs : List ReceiveLogRequest)
    (h : 100 < logs.length) :
    processLogBatchM dateOf cache now dbRead fs st logs
      = processLogBatchM dateOf cache now dbRead fs st (logs.take 100)
    ∧ (processLogBatchM dateOf cache now dbRead fs st logs).failedCount = 0
    ∧ (∀ idx, (cacheGet cache now dbRead).1 = Except.ok idx →
        fs.billingFail = false → fs.logFail = false → fs.tagFail = false →
        (processLogBatchM dateOf cache now dbRead fs st logs).err = none) := by
  have h1 : logs.isEmpty = false := by
    cases logs with
    | nil => simp at h
    | cons a as => rfl
  refine ⟨?_, processLogBatchM_failed_zero _ _ _ _ _ _ _, ?_⟩
  · have h2 : (logs.take 100).isEmpty = false := by
      cases hl : logs.take 100 with
      | nil =>
        rcases List.take_eq_nil_iff.mp hl with h100 | hnil
        · omega
        · subst hnil; simp at h
      | cons a as => rfl
    have hkey : processedLogs (logs.take 100) = processedLogs logs := by
      unfold processedLogs
      rw [List.take_take, min_self]
    have hcb : ∀ idx, classifyBatch dateOf idx (logs.take 100)
        = classifyBatch dateOf idx logs := by
      intro idx
      unfold classifyBatch
      rw [hkey]
    unfold processLogBatchM
    rw [h1, h2]
    simp only [Bool.false_eq_true, if_false]
    cases hcg : (cacheGet cache now dbRead).1 with
    | error e => rfl
    | ok idx => simp only [hcb]
  · intro idx hcg hb hlf htf
    unfold processLogBatchM
    rw [h1]
    simp only [Bool.false_eq_true, if_false]
    rw [hcg]
    exact (runFlush_err_eq _ _ _ _ _ _).trans (flushTx_ok_err _ _ _ _ _ _ hb hlf htf)

/-- C3 witness: a 101-event batch instantiating the truncation theorem. -/
theorem c3_batch_truncated_to_100_witness :
    100 < (List.replicate 101 reqOps).length
    ∧ processLogBatchM dateD cacheStale 30 (Except.error "unused") fsAllOk emptyStore
        (List.replicate 101 reqOps)
      = processLogBatchM dateD cacheStale 30 (Except.error "unused") fsAllOk emptyStore
        ((List.replicate 101 reqOps).take 100) :=
  ⟨by decide,
   (c3_batch_truncated_to_100 dateD cacheStale 30 (Except.error "unused") fsAllOk
      emptyStore (List.replicate 101 reqOps) (by decide)).1⟩

/-- C4: every durable side effect of one flush runs inside one transaction:
whenever ProcessLogBatch reports an error, the store (billing_entries,
log_entries, tag_log_counts) is exactly its pre-call state — no partial
write survives — and the error is the call's return value. -/
theorem c4_flush_atomic (dateOf : Int → String) (cache : CacheState) (now : Int)
    (dbRead : Except String (List BillingConfig × List String)) (fs : FailSpec)
    (st : Store) (logs : List ReceiveLogRequest) (e : String)
    (he : (processLogBatchM dateOf cache now dbRead fs st logs).err = some e) :
    (processLogBatchM dateOf cache now dbRead fs st logs).store = st := by
  unfold processLogBatchM at he ⊢
  by_cases hl : logs.isEmpty
  · rw [if_pos hl] at he
    simp at he
  · have hl2 : logs.isEmpty = false := by revert hl; cases logs.isEmpty <;> simp
    rw [hl2] at he ⊢
    simp only [Bool.false_eq_true, if_false] at he ⊢
    cases hcg : (cacheGet cache now dbRead).1 with
    | error e2 => rfl
    | ok idx =>
      rw [hcg] at he
      exact runFlush_store_of_err _ _ _ _ _ _ e he

/-- C4 witness: a failing LogEntry insert aborts the flush and leaves the
store untouched. -/
theorem c4_flush_atomic_witness :
    (processLogBatchM dateD cacheStale 30 (Except.error "unused") fsLogFail emptyStore
        [reqOps]).err = some "log insert failed"
    ∧ (processLogBatchM dateD cacheStale 30 (Except.error "unused") fsLogFail emptyStore
        [reqOps]).store = emptyStore :=
  ⟨rfl, c4_flush_atomic dateD cacheStale 30 (Except.error "unused") fsLogFail emptyStore
    [reqOps] "log insert failed" rfl⟩

/-- C5 counterexample: a cache holding a previous copy whose TTL has expired,
with the storage read failing — get returns the storage error, not the stale
index, and ProcessLogBatch fails the whole batch with that error, refuting
the claim that the request is served from the stale copy. -/
theorem c5_counterexample :
    cacheStale.indexed = some idxNoRules
    ∧ (cacheGet cacheStale 100 (Except.error "storage unavailable")).1
        = Except.error "storage unavailable"
    ∧ (processLogBatchM dateD cacheStale 100 (Except.error "storage unavailable")
        fsAllOk emptyStore [reqOps]).err = some "storage unavailable" :=
  ⟨rfl, rfl, rfl⟩

/-- C5 as amended: when a rebuild's storage read fails, the previous copy does
stay stored in the cache state (nothing is cleared), but get returns the
error instead of the stale index, and ProcessLogBatch fails the batch with
that error and leaves the store unchanged. -/
theorem c5_rebuild_failure_returns_error (c : CacheState) (now : Int) (e : String)
    (idx : IndexedBillingConfig) (h1 : c.indexed = some idx)
    (h2 : ¬ (now - c.loadedAt < c.ttl)) :
    cacheGet c now (Except.error e) = (Except.error e, c)
    ∧ ∀ (dateOf : Int → String) (fs : FailSpec) (st : Store)
        (logs : List ReceiveLogRequest), logs ≠ [] →
        processLogBatchM dateOf c now (Except.error e) fs st logs
          = { successCount := 0, failedCount := 0, store := st
              unmatchedAdds := [], err := some e } := by
  have hget : cacheGet c now (Except.error e) = (Except.error e, c) := by
    unfold cacheGet
    rw [h1]
    simp [h2]
  refine ⟨hget, ?_⟩
  intro dateOf fs st logs hne
  have hl2 : logs.isEmpty = false := by
    cases logs with
    | nil => exact absurd rfl hne
    | cons a as => rfl
  unfold processLogBatchM
  rw [hl2]
  simp only [Bool.false_eq_true, if_false]
  rw [show (cacheGet c now (Except.error e)).1 = Except.error e from by rw [hget]]

/-- C5 witness: the amended behaviour on a concrete expired cache. -/
theorem c5_rebuild_failure_returns_error_witness :
    cacheStale.indexed = some idxNoRules
    ∧ ¬ ((100 : Int) - cacheStale.loadedAt < cacheStale.ttl)
    ∧ cacheGet cacheStale 100 (Except.error "db down")
        = (Except.error "db down", cacheStale) :=
  ⟨rfl, by decide,
   (c5_rebuild_failure_returns_error cacheStale 100 "db down" idxNoRules rfl
      (by decide)).1⟩

/-! ## Rate limiter lemmas -/

theorem truncQ_zero : truncQ 0 = 0 := by simp [truncQ]

theorem truncQ_one : truncQ 1 = 1 := by norm_num [truncQ]

theorem rlAllow_same_pos (rl : RateLimiterM) (h : 0 < rl.tokens) :
    rlAllow rl rl.lastUpdate = (true, { rl with tokens := rl.tokens - 1 }) := by
  unfold rlAllow
  simp only [sub_self, zero_mul, truncQ_zero, lt_self_iff_false, if_false, h, if_true]

theorem rlAllow_same_zero (rl : RateLimiterM) (h : ¬ 0 < rl.tokens) :
    rlAllow rl rl.lastUpdate = (false, rl) := by
  unfold rlAllow
  simp only [sub_self, zero_mul, truncQ_zero, lt_self_iff_false, if_false, h]

theorem rlFold_acc (rl : RateLimiterM) (pre : List Bool) (ts : List ℚ) :
    List.foldl (fun acc t =>
        (acc.1 ++ [(rlAllow acc.2 t).1], (rlAllow acc.2 t).2)) (pre, rl) ts
      = (pre ++ (List.foldl (fun acc t =>
          (acc.1 ++ [(rlAllow acc.2 t).1], (rlAllow acc.2 t).2)) ([], rl) ts).1,
         (List.foldl (fun acc t =>
          (acc.1 ++ [(rlAllow acc.2 t).1], (rlAllow acc.2 t).2)) ([], rl) ts).2) := by
  induction ts generalizing rl pre with
  | nil => simp
  | cons t ts ih =>
    simp only [List.foldl_cons, List.nil_append]
    rw [ih ((rlAllow rl t).2) (pre ++ [(rlAllow rl t).1]),
        ih ((rlAllow rl t).2) ([(rlAllow rl t).1])]
    simp [List.append_assoc]

theorem rlRun_cons (rl : RateLimiterM) (t : ℚ) (ts : List ℚ) :
    rlRun rl (t :: ts)
      = ((rlAllow rl t).1 :: (rlRun (rlAllow rl t).2 ts).1,
         (rlRun (rlAllow rl t).2 ts).2) := by
  unfold rlRun
  simp only [List.foldl_cons, List.nil_append]
  rw [rlFold_acc]
  rfl

theorem rlRun_exhaust (m : ℕ) (rl : RateLimiterM) (htok : rl.tokens = (m : ℤ)) :
    rlRun rl (List.replicate (m + 1) rl.lastUpdate)
      = (List.replicate m true ++ [false], { rl with tokens := 0 }) := by
  induction m generalizing rl with
  | zero =>
    rw [List.replicate_one, rlRun_cons,
        rlAllow_same_zero rl (by rw [htok]; simp)]
    rw [show rlRun rl [] = ([], rl) from rfl]
    obtain ⟨R0, C0, T0, L0⟩ := rl
    simp_all
  | succ m ih =>
    have hpos : 0 < rl.tokens := by rw [htok]; positivity
    rw [show (m + 1 + 1) = (m + 2) from rfl, List.replicate_succ, rlRun_cons,
        rlAllow_same_pos rl hpos]
    have htok2 : ({ rl with tokens := rl.tokens - 1 } : RateLimiterM).tokens = (m : ℤ) := by
      show rl.tokens - 1 = (m : ℤ)
      rw [htok]
      push_cast
      ring
    have := ih { rl with tokens := rl.tokens - 1 } htok2
    rw [show ({ rl with tokens := rl.tokens - 1 } : RateLimiterM).lastUpdate
        = rl.lastUpdate from rfl] at this
    rw [this]
    dsimp only
    simp [List.replicate_succ]

theorem rlAllow_refill (rl : RateLimiterM) (hr : 0 < rl.rate) (hcap : 1 ≤ rl.capacity)
    (htok : rl.tokens = 0) :
    rlAllow rl (rl.lastUpdate + 1 / (rl.rate : ℚ))
      = (true, { rl with tokens := 0, lastUpdate := rl.lastUpdate + 1 / (rl.rate : ℚ) }) := by
  unfold rlAllow
  have hR0 : (rl.rate : ℚ) ≠ 0 := by
    simp only [ne_eq, Int.cast_eq_zero]
    omega
  have he : rl.lastUpdate + 1 / (rl.rate : ℚ) - rl.lastUpdate = 1 / (rl.rate : ℚ) := by ring
  have hprod : (1 / (rl.rate : ℚ)) * (rl.rate : ℚ) = 1 := by field_simp
  simp only [he, hprod, truncQ_one, htok, zero_add]
  rw [if_pos (by omega : (0:ℤ) < 1), min_eq_left hcap]
  norm_num

/-- C6: a fresh token bucket with rate R > 0 and capacity C > 0 answers C+1
instantaneous Allow calls with exactly C trues then one false; after waiting
exactly 1/R seconds one more call is allowed, and a further call with no time
elapsed is rejected. -/
theorem c6_rate_limiter (R C : Int) (t0 : ℚ) (hR : 0 < R) (hC : 0 < C) :
    (rlRun (newRateLimiter R C t0) (List.replicate (C.toNat + 1) t0)).1
      = List.replicate C.toNat true ++ [false]
    ∧ (rlAllow (rlRun (newRateLimiter R C t0) (List.replicate (C.toNat + 1) t0)).2
        (t0 + 1 / (R : ℚ))).1 = true
    ∧ (rlAllow (rlAllow (rlRun (newRateLimiter R C t0) (List.replicate (C.toNat + 1) t0)).2
        (t0 + 1 / (R : ℚ))).2 (t0 + 1 / (R : ℚ))).1 = false := by
  have hrl0 : newRateLimiter R C t0
      = { rate := R, capacity := C, tokens := C, lastUpdate := t0 } := by
    unfold newRateLimiter
    rw [if_neg (by omega)]
  have htok : ({ rate := R, capacity := C, tokens := C, lastUpdate := t0 }
      : RateLimiterM).tokens = (C.toNat : ℤ) := by
    show C = (C.toNat : ℤ)
    omega
  have hrun := rlRun_exhaust C.toNat
    { rate := R, capacity := C, tokens := C, lastUpdate := t0 } htok
  dsimp only at hrun
  have hrefill := rlAllow_refill
    { rate := R, capacity := C, tokens := 0, lastUpdate := t0 } hR
    (by show (1:ℤ) ≤ C; omega) rfl
  dsimp only at hrefill
  have hzero := rlAllow_same_zero
    { rate := R, capacity := C, tokens := 0, lastUpdate := t0 + 1 / (R : ℚ) }
    (by norm_num)
  dsimp only at hzero
  refine ⟨?_, ?_, ?_⟩
  · rw [hrl0, hrun]
  · rw [hrl0, hrun]
    dsimp only
    rw [hrefill]
  · rw [hrl0, hrun]
    dsimp only
    rw [hrefill]
    dsimp only
    rw [hzero]

/-- C6 witness: the token-bucket scenario at rate 2, capacity 3. -/
theorem c6_rate_limiter_witness :
    (0 : Int) < 2 ∧ (0 : Int) < 3
    ∧ ((rlRun (newRateLimiter 2 3 0) (List.replicate ((3:Int).toNat + 1) 0)).1
        = List.replicate (3:Int).toNat true ++ [false]
      ∧ (rlAllow (rlRun (newRateLimiter 2 3 0) (List.replicate ((3:Int).toNat + 1) 0)).2
          (0 + 1 / ((2:Int) : ℚ))).1 = true
      ∧ (rlAllow (rlAllow (rlRun (newRateLimiter 2 3 0)
            (List.replicate ((3:Int).toNat + 1) 0)).2
          (0 + 1 / ((2:Int) : ℚ))).2 (0 + 1 / ((2:Int) : ℚ))).1 = false) :=
  ⟨by decide, by decide, c6_rate_limiter 2 3 0 (by decide) (by decide)⟩

/-! ## TagLogCount lemmas -/

theorem lookupTagCount_cons (k : String) (v : Int) (s : List (String × Int)) (t : String) :
    lookupTagCount ((k, v) :: s) t = if k == t then some v else lookupTagCount s t := by
  by_cases h : k == t
  · simp [lookupTagCount, List.find?_cons, h]
  · simp only [Bool.not_eq_true] at h
    simp [lookupTagCount, List.find?_cons, h]

theorem lookup_incr_map (s : List (String × Int)) (t : String) (delta : Int) :
    lookupTagCount (s.map (fun p => if p.1 == t then (p.1, p.2 + delta) else p)) t
      = (lookupTagCount s t).map (fun v => v + delta) := by
  induction s with
  | nil => rfl
  | cons q s ih =>
    obtain ⟨k, v⟩ := q
    by_cases h : k == t
    · simp only [List.map_cons, h, if_true]
      rw [lookupTagCount_cons, lookupTagCount_cons, if_pos h, if_pos h]
      rfl
    · simp only [Bool.not_eq_true] at h
      simp only [List.map_cons, h, Bool.false_eq_true, if_false]
      rw [lookupTagCount_cons, lookupTagCount_cons, if_neg (by simp [h]), if_neg (by simp [h])]
      exact ih

theorem lookup_decr_map (s : List (String × Int)) (t : String) (delta : Int) :
    lookupTagCount (s.map (fun p => if p.1 == t then (p.1, max 0 (p.2 + delta)) else p)) t
      = (lookupTagCount s t).map (fun v => max 0 (v + delta)) := by
  induction s with
  | nil => rfl
  | cons q s ih =>
    obtain ⟨k, v⟩ := q
    by_cases h : k == t
    · simp only [List.map_cons, h, if_true]
      rw [lookupTagCount_cons, lookupTagCount_cons, if_pos h, if_pos h]
      rfl
    · simp only [Bool.not_eq_true] at h
      simp only [List.map_cons, h, Bool.false_eq_true, if_false]
      rw [lookupTagCount_cons, lookupTagCount_cons, if_neg (by simp [h]), if_neg (by simp [h])]
      exact ih

theorem lookup_append_none (s : List (String × Int)) (t : String) (v : Int)
    (h : lookupTagCount s t = none) :
    lookupTagCount (s ++ [(t, v)]) t = some v := by
  induction s with
  | nil => simp [lookupTagCount, List.find?_cons]
  | cons q s ih =>
    obtain ⟨k, w⟩ := q
    rw [List.cons_append, lookupTagCount_cons]
    rw [lookupTagCount_cons] at h
    by_cases hk : k == t
    · rw [if_pos hk] at h
      exact Option.noConfusion h
    · simp only [Bool.not_eq_true] at hk
      rw [if_neg (by simp [hk])] at h ⊢
      exact ih h

theorem tagLogCount_nonneg {s : List (String × Int)} (h : nonnegCounts s)
    (t : String) : 0 ≤ tagLogCount s t := by
  unfold tagLogCount
  cases hl : lookupTagCount s t with
  | none => simp
  | some v =>
    unfold lookupTagCount at hl
    rcases hfind : s.find? (fun p => p.1 == t) with _ | p
    · rw [hfind] at hl
      exact Option.noConfusion hl
    · rw [hfind] at hl
      have hmem := List.mem_of_find?_eq_some hfind
      have hv := h p hmem
      simp only [Option.map] at hl
      have : p.2 = v := Option.some.inj hl
      simp [← this, hv]

theorem incrOneTag_spec (s : List (String × Int)) (tag : String) (K : Int)
    (ht : strTrim tag = tag) (hne : tag ≠ "") (hK : 0 < K) :
    tagLogCount (incrOneTag s tag K) tag = tagLogCount s tag + K := by
  have hcond : ((tag == "") || decide (K ≤ 0)) = false := by
    simp [hne]
    omega
  unfold incrOneTag
  rw [ht]
  simp only [hcond, Bool.false_eq_true, if_false]
  cases hl : lookupTagCount s tag with
  | some v =>
    unfold tagLogCount
    rw [lookup_incr_map, hl]
    rfl
  | none =>
    unfold tagLogCount
    rw [lookup_append_none s tag K hl, hl]
    simp

theorem decrOneTag_spec (s : List (String × Int)) (tag : String) (d : Int)
    (ht : strTrim tag = tag) (hne : tag ≠ "") (hd : 0 < d) :
    tagLogCount (decrOneTag s tag (-d)) tag = max 0 (tagLogCount s tag - d) := by
  have hcond : ((tag == "") || decide ((0:Int) ≤ -d)) = false := by
    simp [hne]
    omega
  unfold decrOneTag
  rw [ht]
  simp only [hcond, Bool.false_eq_true, if_false]
  unfold tagLogCount
  rw [lookup_decr_map]
  cases hl : lookupTagCount s tag with
  | some v => simp [hl, sub_eq_add_neg]
  | none =>
    simp
    omega

theorem decr_fold_count (tag : String) (ht : strTrim tag = tag) (hne : tag ≠ "") :
    ∀ (ds : List Int) (s1 : List (String × Int)) (c : Int),
      tagLogCount s1 tag = c → (∀ d ∈ ds, 0 < d) → ds.sum ≤ c → 0 ≤ c →
      tagLogCount (ds.foldl (fun s2 d => decrOneTag s2 tag (-d)) s1) tag = c - ds.sum := by
  intro ds
  induction ds with
  | nil =>
    intro s1 c hc _ _ _
    simpa using hc
  | cons d ds ih =>
    intro s1 c hc hpos hle h0c
    rw [List.foldl_cons]
    have hd : 0 < d := hpos d (by simp)
    have hsumtail : 0 ≤ ds.sum :=
      List.sum_nonneg (fun x hx => (hpos x (by simp [hx])).le)
    have hsc : (d :: ds).sum = d + ds.sum := by simp
    rw [hsc] at hle
    have hstep := decrOneTag_spec s1 tag d ht hne hd
    rw [hc] at hstep
    have hmax : max 0 (c - d) = c - d := by omega
    rw [hmax] at hstep
    rw [ih (decrOneTag s1 tag (-d)) (c - d) hstep
        (fun x hx => hpos x (by simp [hx])) (by omega) (by omega)]
    rw [hsc]
    ring

theorem nonneg_incrOneTag (s : List (String × Int)) (t : String) (d : Int)
    (h : nonnegCounts s) : nonnegCounts (incrOneTag s t d) := by
  unfold incrOneTag
  by_cases hcond : ((strTrim t == "") || decide (d ≤ 0)) = true
  · rw [if_pos hcond]
    exact h
  · rw [if_neg hcond]
    have hd : 0 < d := by
      simp only [Bool.or_eq_true, beq_iff_eq, decide_eq_true_eq] at hcond
      push_neg at hcond
      omega
    cases hl : lookupTagCount s (strTrim t) with
    | some v =>
      intro p hp
      rcases List.mem_map.mp hp with ⟨q, hq, hqe⟩
      by_cases hqt : q.1 == strTrim t
      · rw [if_pos hqt] at hqe
        rw [← hqe]
        have := h q hq
        simp
        omega
      · rw [if_neg hqt] at hqe
        rw [← hqe]
        exact h q hq
    | none =>
      intro p hp
      rcases List.mem_append.mp hp with hp1 | hp2
      · exact h p hp1
      · simp only [List.mem_singleton] at hp2
        rw [hp2]
        exact hd.le

theorem nonneg_decrOneTag (s : List (String × Int)) (t : String) (d : Int)
    (h : nonnegCounts s) : nonnegCounts (decrOneTag s t d) := by
  unfold decrOneTag
  by_cases hcond : ((strTrim t == "") || decide ((0:Int) ≤ d)) = true
  · rw [if_pos hcond]
    exact h
  · rw [if_neg hcond]
    intro p hp
    rcases List.mem_map.mp hp with ⟨q, hq, hqe⟩
    by_cases hqt : q.1 == strTrim t
    · rw [if_pos hqt] at hqe
      rw [← hqe]
      simp
    · rw [if_neg hqt] at hqe
      rw [← hqe]
      exact h q hq

theorem nonneg_incrTagDeltas (deltas : List (String × Int)) :
    ∀ s, nonnegCounts s → nonnegCounts (incrTagDeltas s deltas) := by
  induction deltas with
  | nil => intro s h; exact h
  | cons d ds ih =>
    intro s h
    unfold incrTagDeltas
    rw [List.foldl_cons]
    exact ih (incrOneTag s d.1 d.2) (nonneg_incrOneTag s d.1 d.2 h)

theorem nonneg_decrTagDeltas (deltas : List (String × Int)) :
    ∀ s, nonnegCounts s → nonnegCounts (decrTagDeltas s deltas) := by
  induction deltas with
  | nil => intro s h; exact h
  | cons d ds ih =>
    intro s h
    unfold decrTagDeltas
    rw [List.foldl_cons]
    exact ih (decrOneTag s d.1 d.2) (nonneg_decrOneTag s d.1 d.2 h)

theorem nonneg_applyTagOps (ops : List TagCountOp) :
    ∀ s, nonnegCounts s → nonnegCounts (applyTagOps s ops) := by
  induction ops with
  | nil => intro s h; exact h
  | cons op ops ih =>
    intro s h
    unfold applyTagOps
    rw [List.foldl_cons]
    refine ih (applyTagOp s op) ?_
    cases op with
    | incr deltas => exact nonneg_incrTagDeltas deltas s h
    | decr deltas => exact nonneg_decrTagDeltas deltas s h

/-- C7: inserting K LogEntries carrying a tag (one IncrByTagDeltas of K) and
then deleting all of them through retention pages (DecrByTagDeltas calls whose
positive page counts sum to K) returns TagLogCount(tag) to its pre-insert
value; and over any sequence of increment/decrement operations every
TagLogCount stays non-negative. -/
theorem c7_taglogcount_roundtrip_nonneg (s : List (String × Int)) (tag : String)
    (K : Int) (ds : List Int) (h0 : nonnegCounts s) (ht : strTrim tag = tag)
    (hne : tag ≠ "") (hK : 0 < K) (hds : ∀ d ∈ ds, 0 < d) (hsum : ds.sum = K) :
    tagLogCount (ds.foldl (fun s2 d => decrOneTag s2 tag (-d)) (incrOneTag s tag K)) tag
      = tagLogCount s tag
    ∧ ∀ (ops : List TagCountOp) (tag2 : String),
        0 ≤ tagLogCount (applyTagOps s ops) tag2 := by
  have hc0 : 0 ≤ tagLogCount s tag := tagLogCount_nonneg h0 tag
  constructor
  · rw [decr_fold_count tag ht hne ds (incrOneTag s tag K) (tagLogCount s tag + K)
        (incrOneTag_spec s tag K ht hne hK) hds (by omega) (by omega)]
    omega
  · intro ops tag2
    exact tagLogCount_nonneg (nonneg_applyTagOps ops s h0) tag2

/-- C7 witness: two inserts then two single-row retention pages on tag "a". -/
theorem c7_taglogcount_roundtrip_nonneg_witness :
    nonnegCounts ([] : List (String × Int))
    ∧ ([1, 1] : List Int).sum = 2
    ∧ (tagLogCount (([1, 1] : List Int).foldl
          (fun s2 d => decrOneTag s2 "a" (-d)) (incrOneTag [] "a" 2)) "a"
        = tagLogCount [] "a"
      ∧ ∀ (ops : List TagCountOp) (tag2 : String),
          0 ≤ tagLogCount (applyTagOps [] ops) tag2) :=
  ⟨by intro p hp; simp at hp, by decide,
   c7_taglogcount_roundtrip_nonneg [] "a" 2 [1, 1] (by intro p hp; simp at hp)
     (by decide) (by decide) (by decide) (by decide) (by decide)⟩

/-! ## Unmatched-ring lemmas -/

theorem lookupItem_cons (k0 : String) (it : UItem) (items : List (String × UItem))
    (k : String) :
    lookupItem ((k0, it) :: items) k = if k0 == k then some it else lookupItem items k := by
  by_cases h : k0 == k
  · simp [lookupItem, List.find?_cons, h]
  · simp only [Bool.not_eq_true] at h
    simp [lookupItem, List.find?_cons, h]

theorem lookupItem_append_single (items : List (String × UItem)) (k : String)
    (it : UItem) (h : lookupItem items k = none) :
    lookupItem (items ++ [(k, it)]) k = some it := by
  induction items with
  | nil => simp [lookupItem, List.find?_cons]
  | cons q items ih =>
    obtain ⟨k0, it0⟩ := q
    rw [List.cons_append, lookupItem_cons]
    rw [lookupItem_cons] at h
    by_cases hk : k0 == k
    · rw [if_pos hk] at h
      exact Option.noConfusion h
    · simp only [Bool.not_eq_true] at hk
      rw [if_neg (by simp [hk])] at h ⊢
      exact ih h

theorem lookupItem_append_other (items : List (String × UItem)) (k1 k : String)
    (it : UItem) (h : k1 ≠ k) :
    lookupItem (items ++ [(k, it)]) k1 = lookupItem items k1 := by
  induction items with
  | nil =>
    simp [lookupItem, List.find?_cons, beq_eq_false_iff_ne.mpr (Ne.symm h)]
  | cons q items ih =>
    obtain ⟨k0, it0⟩ := q
    rw [List.cons_append, lookupItem_cons, lookupItem_cons]
    by_cases hk : k0 == k1
    · rw [if_pos hk, if_pos hk]
    · simp only [Bool.not_eq_true] at hk
      rw [if_neg (by simp [hk]), if_neg (by simp [hk])]
      exact ih

theorem lookupItem_erase_self (items : List (String × UItem)) (k : String) :
    lookupItem (eraseItem items k) k = none := by
  induction items with
  | nil => rfl
  | cons q items ih =>
    obtain ⟨k0, it0⟩ := q
    unfold eraseItem at ih ⊢
    rw [List.filter_cons]
    by_cases hk : k0 == k
    · rw [if_neg (by simp [hk])]
      exact ih
    · simp only [Bool.not_eq_true] at hk
      rw [if_pos (by simp [hk]), lookupItem_cons, if_neg (by simp [hk])]
      exact ih

theorem lookupItem_erase_other (items : List (String × UItem)) (k k1 : String)
    (h : k1 ≠ k) :
    lookupItem (eraseItem items k) k1 = lookupItem items k1 := by
  induction items with
  | nil => rfl
  | cons q items ih =>
    obtain ⟨k0, it0⟩ := q
    unfold eraseItem at ih ⊢
    rw [List.filter_cons]
    by_cases hk : k0 == k
    · rw [if_neg (by simp [hk]), lookupItem_cons]
      have hk0 : k0 = k := by simpa using hk
      rw [if_neg (by simp [hk0, Ne.symm h])]
      exact ih
    · simp only [Bool.not_eq_true] at hk
      rw [if_pos (by simp [hk]), lookupItem_cons, lookupItem_cons]
      by_cases hk1 : k0 == k1
      · rw [if_pos hk1, if_pos hk1]
      · simp only [Bool.not_eq_true] at hk1
        rw [if_neg (by simp [hk1]), if_neg (by simp [hk1])]
        exact ih

theorem lookupItem_erase_none (items : List (String × UItem)) (o k : String)
    (h : lookupItem items k = none) :
    lookupItem (eraseItem items o) k = none := by
  induction items with
  | nil => rfl
  | cons q items ih =>
    obtain ⟨k0, it0⟩ := q
    rw [lookupItem_cons] at h
    by_cases hk : k0 == k
    · rw [if_pos hk] at h
      exact Option.noConfusion h
    · simp only [Bool.not_eq_true] at hk
      rw [if_neg (by simp [hk])] at h
      unfold eraseItem at ih ⊢
      rw [List.filter_cons]
      by_cases ho : k0 == o
      · rw [if_neg (by simp [ho])]
        exact ih h
      · simp only [Bool.not_eq_true] at ho
        rw [if_pos (by simp [ho]), lookupItem_cons, if_neg (by simp [hk])]
        exact ih h

theorem lookup_none_not_mem (items : List (String × UItem)) (k : String)
    (h : lookupItem items k = none) : k ∉ items.map (fun p => p.1) := by
  induction items with
  | nil => simp
  | cons q items ih =>
    obtain ⟨k0, it0⟩ := q
    rw [lookupItem_cons] at h
    by_cases hk : k0 == k
    · rw [if_pos hk] at h
      exact Option.noConfusion h
    · simp only [Bool.not_eq_true] at hk
      rw [if_neg (by simp [hk])] at h
      simp only [List.map_cons, List.mem_cons]
      rintro (h1 | h2)
      · rw [h1] at hk
        simp at hk
      · exact ih h h2

theorem filter_key_nil_of_lookup_none (items : List (String × UItem)) (k : String)
    (h : lookupItem items k = none) :
    items.filter (fun p => p.1 == k) = [] := by
  induction items with
  | nil => rfl
  | cons q items ih =>
    obtain ⟨k0, it0⟩ := q
    rw [lookupItem_cons] at h
    by_cases hk : k0 == k
    · rw [if_pos hk] at h
      exact Option.noConfusion h
    · simp only [Bool.not_eq_true] at hk
      rw [if_neg (by simp [hk])] at h
      rw [List.filter_cons, if_neg (by simp [hk])]
      exact ih h

theorem lookupItem_update_self (items : List (String × UItem)) (k : String)
    (f : UItem → UItem) :
    lookupItem (updateItem items k f) k = (lookupItem items k).map f := by
  induction items with
  | nil => rfl
  | cons q items ih =>
    obtain ⟨k0, it0⟩ := q
    unfold updateItem at ih ⊢
    rw [List.map_cons]
    by_cases hk : k0 == k
    · rw [if_pos hk, lookupItem_cons, lookupItem_cons, if_pos hk, if_pos hk]
      rfl
    · simp only [Bool.not_eq_true] at hk
      rw [if_neg (by simp [hk]), lookupItem_cons, lookupItem_cons,
          if_neg (by simp [hk]), if_neg (by simp [hk])]
      exact ih

theorem filter_key_update (items : List (String × UItem)) (k : String)
    (f : UItem → UItem) :
    ((updateItem items k f).filter (fun p => p.1 == k)).length
      = (items.filter (fun p => p.1 == k)).length := by
  induction items with
  | nil => rfl
  | cons q items ih =>
    obtain ⟨k0, it0⟩ := q
    unfold updateItem at ih ⊢
    rw [List.map_cons]
    dsimp only
    by_cases hk : (k0 == k) = true
    · rw [if_pos hk, List.filter_cons, List.filter_cons]
      dsimp only
      rw [if_pos hk, if_pos hk]
      simp only [List.length_cons]
      rw [ih]
    · have hk2 : (k0 == k) = false := by revert hk; cases k0 == k <;> simp
      rw [if_neg (by simp [hk2]), List.filter_cons, List.filter_cons]
      dsimp only
      rw [if_neg (by simp [hk2]), if_neg (by simp [hk2])]
      exact ih

theorem qAdd_insert_nofull (q : QueueM) (now : Int) (tag rule line : String)
    (hne2 : (tag == "" && rule == "") = false)
    (habs : lookupItem q.items (qKey tag rule) = none)
    (hnf : ¬ q.maxSize ≤ q.order.length) :
    qAdd q now tag rule line
      = { items := q.items ++ [(qKey tag rule,
            { tag := tag, ruleName := rule, logLineSample := truncateSample line
              count := 1, lastSeen := now })]
          order := q.order ++ [qKey tag rule], maxSize := q.maxSize } := by
  unfold qAdd
  simp only [hne2, Bool.false_eq_true, if_false, habs]
  rw [if_neg hnf]

theorem qAdd_insert_full_nil (q : QueueM) (now : Int) (tag rule line : String)
    (hne2 : (tag == "" && rule == "") = false)
    (habs : lookupItem q.items (qKey tag rule) = none)
    (hf : q.maxSize ≤ q.order.length) (horder : q.order = []) :
    qAdd q now tag rule line
      = { items := q.items ++ [(qKey tag rule,
            { tag := tag, ruleName := rule, logLineSample := truncateSample line
              count := 1, lastSeen := now })]
          order := q.order ++ [qKey tag rule], maxSize := q.maxSize } := by
  unfold qAdd
  simp only [hne2, Bool.false_eq_true, if_false, habs]
  rw [if_pos hf]
  conv_lhs => rw [horder]

theorem qAdd_insert_full_cons (q : QueueM) (now : Int) (tag rule line : String)
    (oldest : String) (rest : List String)
    (hne2 : (tag == "" && rule == "") = false)
    (habs : lookupItem q.items (qKey tag rule) = none)
    (hf : q.maxSize ≤ q.order.length) (horder : q.order = oldest :: rest) :
    qAdd q now tag rule line
      = { items := eraseItem q.items oldest ++ [(qKey tag rule,
            { tag := tag, ruleName := rule, logLineSample := truncateSample line
              count := 1, lastSeen := now })]
          order := rest ++ [qKey tag rule], maxSize := q.maxSize } := by
  unfold qAdd
  simp only [hne2, Bool.false_eq_true, if_false, habs]
  rw [if_pos hf, horder]

theorem qAdd_touch (q : QueueM) (now : Int) (tag rule line : String) (it : UItem)
    (hne2 : (tag == "" && rule == "") = false)
    (hfound : lookupItem q.items (qKey tag rule) = some it) :
    qAdd q now tag rule line
      = { q with items := updateItem q.items (qKey tag rule) (fun it2 => { it2 with count := it2.count + 1, logLineSample := truncateSample line, lastSeen := now }) } := by
  unfold qAdd
  simp only [hne2, Bool.false_eq_true, if_false, hfound]

theorem qAdd_new_spec (q : QueueM) (now : Int) (tag rule line : String)
    (hne2 : (tag == "" && rule == "") = false)
    (habs : lookupItem q.items (qKey tag rule) = none) :
    lookupItem (qAdd q now tag rule line).items (qKey tag rule)
      = some { tag := tag, ruleName := rule, logLineSample := truncateSample line, count := 1, lastSeen := now }
    ∧ ((qAdd q now tag rule line).items.filter (fun p => p.1 == qKey tag rule)).length = 1 := by
  by_cases hf : q.maxSize ≤ q.order.length
  · cases horder : q.order with
    | nil =>
      rw [qAdd_insert_full_nil q now tag rule line hne2 habs hf horder]
      refine ⟨lookupItem_append_single _ _ _ habs, ?_⟩
      rw [List.filter_append, filter_key_nil_of_lookup_none _ _ habs]
      simp
    | cons oldest rest =>
      rw [qAdd_insert_full_cons q now tag rule line oldest rest hne2 habs hf horder]
      have habs2 : lookupItem (eraseItem q.items oldest) (qKey tag rule) = none :=
        lookupItem_erase_none _ _ _ habs
      refine ⟨lookupItem_append_single _ _ _ habs2, ?_⟩
      rw [List.filter_append, filter_key_nil_of_lookup_none _ _ habs2]
      simp
  · rw [qAdd_insert_nofull q now tag rule line hne2 habs hf]
    refine ⟨lookupItem_append_single _ _ _ habs, ?_⟩
    rw [List.filter_append, filter_key_nil_of_lookup_none _ _ habs]
    simp

/-- C8: with the ring at capacity on distinct keys, adding one more distinct
(tag, rule_name) key evicts exactly the oldest-inserted key — the new key is
stored with count 1, the head key disappears, every other key's entry is
untouched, and the order becomes tail-plus-new; and adding the same key twice
yields a single entry with count 2 (sample and last-seen refreshed), the
second add changing neither the order list nor the ring's size. -/
theorem c8_ring_behaviour (q : QueueM) (now1 now2 : Int) (tag rule line1 line2 : String)
    (hwf : qWF q) (hne : ¬ (tag = "" ∧ rule = ""))
    (habs : lookupItem q.items (qKey tag rule) = none) (hcap : 0 < q.maxSize) :
    (q.order.length = q.maxSize →
      ((qAdd q now1 tag rule line1).order = q.order.tail ++ [qKey tag rule]
      ∧ lookupItem (qAdd q now1 tag rule line1).items (qKey tag rule)
          = some { tag := tag, ruleName := rule, logLineSample := truncateSample line1, count := 1, lastSeen := now1 }
      ∧ (∀ oldest, q.order.head? = some oldest →
          lookupItem (qAdd q now1 tag rule line1).items oldest = none)
      ∧ (∀ k1, k1 ∈ q.order.tail →
          lookupItem (qAdd q now1 tag rule line1).items k1 = lookupItem q.items k1)))
    ∧ (lookupItem (qAdd (qAdd q now1 tag rule line1) now2 tag rule line2).items
          (qKey tag rule)
        = some { tag := tag, ruleName := rule, logLineSample := truncateSample line2, count := 2, lastSeen := now2 }
      ∧ (qAdd (qAdd q now1 tag rule line1) now2 tag rule line2).order
          = (qAdd q now1 tag rule line1).order
      ∧ ((qAdd (qAdd q now1 tag rule line1) now2 tag rule line2).items.filter
          (fun p => p.1 == qKey tag rule)).length = 1) := by
  have hne2 : (tag == "" && rule == "") = false := by
    by_cases h1 : tag = ""
    · by_cases h2 : rule = ""
      · exact absurd ⟨h1, h2⟩ hne
      · simp [h2]
    · simp [h1]
  constructor
  · intro hfull
    have hf : q.maxSize ≤ q.order.length := le_of_eq hfull.symm
    have hkey_not_mem : qKey tag rule ∉ q.order := by
      rw [← hwf.1]
      exact lookup_none_not_mem _ _ habs
    cases horder : q.order with
    | nil =>
      rw [horder] at hfull
      simp at hfull
      omega
    | cons oldest rest =>
      have hnodup := hwf.2
      rw [horder] at hnodup
      have holdest_notin : oldest ∉ rest := (List.nodup_cons.mp hnodup).1
      have holdest_ne : oldest ≠ qKey tag rule := by
        intro hc
        exact hkey_not_mem (by rw [horder, ← hc]; exact List.mem_cons_self _ _)
      rw [qAdd_insert_full_cons q now1 tag rule line1 oldest rest hne2 habs hf horder]
      have habs2 : lookupItem (eraseItem q.items oldest) (qKey tag rule) = none :=
        lookupItem_erase_none _ _ _ habs
      refine ⟨rfl, lookupItem_append_single _ _ _ habs2, ?_, ?_⟩
      · intro o ho
        simp only [List.head?_cons, Option.some.injEq] at ho
        subst ho
        dsimp only
        rw [lookupItem_append_other _ _ _ _ holdest_ne]
        exact lookupItem_erase_self _ _
      · intro k1 hk1
        simp only [List.tail_cons] at hk1
        have hk1_ne_key : k1 ≠ qKey tag rule := by
          intro hc
          refine hkey_not_mem ?_
          rw [horder, ← hc]
          exact List.mem_cons_of_mem _ hk1
        have hk1_ne_old : k1 ≠ oldest := fun hc => holdest_notin (hc ▸ hk1)
        dsimp only
        rw [lookupItem_append_other _ _ _ _ hk1_ne_key,
            lookupItem_erase_other _ _ _ hk1_ne_old]
  · have hq1 := qAdd_new_spec q now1 tag rule line1 hne2 habs
    have htouch := qAdd_touch (qAdd q now1 tag rule line1) now2 tag rule line2 _ hne2 hq1.1
    rw [htouch]
    refine ⟨?_, rfl, ?_⟩
    · dsimp only
      rw [lookupItem_update_self, hq1.1]
      rfl
    · dsimp only
      rw [filter_key_update]
      exact hq1.2

/-- C8 witness: the ring behaviour at capacity 2 with keys "a"/"b" present
and the fresh key "c". -/
theorem c8_ring_behaviour_witness :
    qWF qAtCap
    ∧ lookupItem qAtCap.items (qKey "c" "r") = none
    ∧ ((qAtCap.order.length = qAtCap.maxSize →
        ((qAdd qAtCap 3 "c" "r" "l1").order = qAtCap.order.tail ++ [qKey "c" "r"]
        ∧ lookupItem (qAdd qAtCap 3 "c" "r" "l1").items (qKey "c" "r")
            = some { tag := "c", ruleName := "r", logLineSample := truncateSample "l1", count := 1, lastSeen := 3 }
        ∧ (∀ oldest, qAtCap.order.head? = some oldest →
            lookupItem (qAdd qAtCap 3 "c" "r" "l1").items oldest = none)
        ∧ (∀ k1, k1 ∈ qAtCap.order.tail →
            lookupItem (qAdd qAtCap 3 "c" "r" "l1").items k1 = lookupItem qAtCap.items k1)))
      ∧ (lookupItem (qAdd (qAdd qAtCap 3 "c" "r" "l1") 4 "c" "r" "l2").items
            (qKey "c" "r")
          = some { tag := "c", ruleName := "r", logLineSample := truncateSample "l2", count := 2, lastSeen := 4 }
        ∧ (qAdd (qAdd qAtCap 3 "c" "r" "l1") 4 "c" "r" "l2").order
            = (qAdd qAtCap 3 "c" "r" "l1").order
        ∧ ((qAdd (qAdd qAtCap 3 "c" "r" "l1") 4 "c" "r" "l2").items.filter
            (fun p => p.1 == qKey "c" "r")).length = 1)) :=
  ⟨⟨by decide, by decide⟩, by decide,
   c8_ring_behaviour qAtCap 3 4 "c" "r" "l1" "l2" ⟨by decide, by decide⟩
     (by decide) (by decide) (by decide)⟩

/-- C9 counterexample: after inserting keys "a" then "b" and touching "a"
again (count bump at time 3), Snapshot 1 returns the "b" entry (last touched
at time 2), not the most recently touched "a" entry (time 3) — Snapshot
orders by first insertion, not by touch recency. -/
theorem c9_counterexample :
    (qSnapshot (qAdd qAtCap 3 "a" "r" "la2") 1).map (fun it => it.tag) = ["b"]
    ∧ (lookupItem (qAdd qAtCap 3 "a" "r" "la2").items (qKey "a" "r")).map
        (fun it => it.lastSeen) = some 3
    ∧ (qSnapshot (qAdd qAtCap 3 "a" "r" "la2") 1).map (fun it => it.lastSeen) = [2] :=
  ⟨by decide, by decide, by decide⟩

theorem filterMap_congr_mem {α β : Type} {l : List α} {f g : α → Option β}
    (h : ∀ a ∈ l, f a = g a) : l.filterMap f = l.filterMap g := by
  induction l with
  | nil => rfl
  | cons a as ih =>
    simp only [List.filterMap_cons, h a (by simp)]
    cases g a with
    | none => exact ih fun b hb => h b (by simp [hb])
    | some v => rw [ih fun b hb => h b (by simp [hb])]

theorem filterMap_lookup_keys (items : List (String × UItem))
    (hnodup : (items.map (fun p => p.1)).Nodup) :
    (items.map (fun p => p.1)).reverse.filterMap (fun k => lookupItem items k)
      = (items.map (fun p => p.2)).reverse := by
  induction items with
  | nil => rfl
  | cons q items ih =>
    obtain ⟨k0, it0⟩ := q
    simp only [List.map_cons, List.reverse_cons]
    rw [List.filterMap_append]
    have hk0_notin : k0 ∉ items.map (fun p => p.1) :=
      (List.nodup_cons.mp (by simpa using hnodup)).1
    have hnodup2 : (items.map (fun p => p.1)).Nodup :=
      (List.nodup_cons.mp (by simpa using hnodup)).2
    have hcongr : ∀ k ∈ (items.map (fun p => p.1)).reverse,
        lookupItem ((k0, it0) :: items) k = lookupItem items k := by
      intro k hk
      rw [List.mem_reverse] at hk
      rw [lookupItem_cons, if_neg]
      intro hc
      have : k0 = k := by simpa using hc
      exact hk0_notin (this ▸ hk)
    rw [filterMap_congr_mem hcongr, ih hnodup2]
    have htail : List.filterMap (fun k => lookupItem ((k0, it0) :: items) k) [k0]
        = [it0] := by
      simp only [List.filterMap_cons, lookupItem_cons]
      rw [if_pos (by simp)]
      rfl
    rw [htail]

/-- C9 as amended: Snapshot returns the N most recently *inserted* entries,
newest-insertion first; a repeated-key Add refreshes count/sample/last-seen
but does not move the entry forward in the returned order. -/
theorem c9_snapshot_most_recently_inserted (q : QueueM) (limit : Int) (h : qWF q) :
    qSnapshot q limit
      = ((q.items.map (fun p => p.2)).reverse).take
          (if 0 < limit ∧ (limit : Int) < (q.order.length : Int) then limit.toNat
           else q.order.length) := by
  unfold qSnapshot
  have h1 := h.1
  rw [← h1]
  rw [filterMap_lookup_keys q.items (by rw [h1]; exact h.2)]

/-- C9 witness: the amended snapshot law on the concrete two-entry ring. -/
theorem c9_snapshot_most_recently_inserted_witness :
    qWF qAtCap
    ∧ qSnapshot qAtCap 1
        = ((qAtCap.items.map (fun p => p.2)).reverse).take
            (if 0 < (1 : Int) ∧ ((1 : Int) : Int) < (qAtCap.order.length : Int)
             then (1 : Int).toNat else qAtCap.order.length) :=
  ⟨⟨by decide, by decide⟩,
   c9_snapshot_most_recently_inserted qAtCap 1 ⟨by decide, by decide⟩⟩

/-- C10 counterexample: a frame whose payload parses neither as a single
event nor as a batch does not terminate the connection — handleConn skips it
and keeps reading, refuting the claim that malformed payloads terminate. -/
theorem c10_counterexample :
    handleFrame "" 10 none none = FrameOutcome.continueConn []
    ∧ FrameOutcome.continueConn ([] : List ReceiveLogRequest)
        ≠ FrameOutcome.terminate :=
  ⟨rfl, by decide⟩

/-- C10 as amended: a declared length of 0 or above 4 MiB terminates the
connection; a malformed (unparseable or empty) payload is skipped with the
connection kept open; in both cases no event is enqueued. -/
theorem c10_frame_handling (cfgSecret : String) (payloadLen : Nat)
    (sp : Option ReceiveLogRequest) (bp : Option (List ReceiveLogRequest)) :
    (payloadLen = 0 ∨ maxFrameSize < payloadLen →
      handleFrame cfgSecret payloadLen sp bp = FrameOutcome.terminate)
    ∧ (¬ (payloadLen = 0 ∨ maxFrameSize < payloadLen) → framePayloadLogs sp bp = [] →
      handleFrame cfgSecret payloadLen sp bp = FrameOutcome.continueConn []) := by
  constructor
  · intro h
    unfold handleFrame
    rw [if_pos h]
  · intro h hlogs
    unfold handleFrame
    rw [if_neg h]
    simp [hlogs]

/-- C10 witness: a zero-length frame terminates; an unparseable payload of
legal size is skipped. -/
theorem c10_frame_handling_witness :
    handleFrame "" 0 none none = FrameOutcome.terminate
    ∧ handleFrame "" 10 none none = FrameOutcome.continueConn [] :=
  ⟨(c10_frame_handling "" 0 none none).1 (Or.inl rfl),
   (c10_frame_handling "" 10 none none).2 (by decide) rfl⟩

end LogManager
